import Mathlib

/-!
Verification of the OpenPecha toolkit core algorithms.

Part 1 embeds `Serialize` from `src/openpecha/serializers/serialize.py`
(the layer compositor): texts are `List Char`, the `chars_toapply`
structure is an association list keyed by `(volume id, character
coordinate)`, and rendering follows `get_result` exactly, including its
skipping of U+FEFF characters and its `return` placed inside the volume
loop (so only the first volume is rendered).

Part 2 embeds `Blupdate` from `src/openpoti/blupdate.py` (the base layer
updater).  Several of its methods have empty bodies (`pass`) in the
source; those are modelled from the specification, as marked in their
doc comments.  `get_updated_coord` and `get_updated_with_dmp`, whose
bodies do exist, are translated faithfully, including the fact that
`get_updated_coord` refers to a method name `getupdatedwithdmp` that
does not exist on the class, which in Python raises an `AttributeError`;
that failure is modelled with `Except.error`.
-/

namespace OpenPecha

/-- The byte-order-mark character U+FEFF skipped by `get_result`. -/
def bom : Char := Char.ofNat 0xFEFF

/-- `chars_toapply`: for each `(volume id, character coordinate)` key, a pair
`(before-list, after-list)` of character sequences to splice around the
character at that coordinate.  Embeds the nested `defaultdict` of
`Serialize.__init__`. -/
abbrev CharsMap : Type := List ((String × Nat) × (List (List Char) × List (List Char)))

/-- Dictionary lookup of the pair stored for `(v, cc)`, `none` when the key is
absent (Python: `cc in self.chars_toapply[vol_id]`). -/
def lookupCC : CharsMap → String → Nat → Option (List (List Char) × List (List Char))
  | [], _, _ => none
  | (k, val) :: rest, v, cc => if k = (v, cc) then some val else lookupCC rest v cc

/-- Dictionary store: replace the value at key `(v, cc)`, or append the key if
absent. -/
def setCC : CharsMap → String → Nat → (List (List Char) × List (List Char)) → CharsMap
  | [], v, cc, val => [((v, cc), val)]
  | (k, old) :: rest, v, cc, val =>
    if k = (v, cc) then (k, val) :: rest else (k, old) :: setCC rest v cc val

/-- `Serialize.add_chars(vol_id, cc, frombefore, charstoadd)`: create the
`([], [])` entry when the key is absent, then insert `charstoadd` at the front
of the before-list (`frombefore = true`) or append it to the end of the
after-list (`frombefore = false`). -/
def add_chars (m : CharsMap) (v : String) (cc : Nat) (frombefore : Bool)
    (charstoadd : List Char) : CharsMap :=
  let cur := (lookupCC m v cc).getD ([], [])
  setCC m v cc (if frombefore then (charstoadd :: cur.1, cur.2) else (cur.1, cur.2 ++ [charstoadd]))

/-- Concatenation of a list of character sequences in list order (the
`for s in apply[k]: res += s` loops of `get_result`). -/
def concatAll : List (List Char) → List Char
  | [] => []
  | s :: rest => s ++ concatAll rest

/-- Emission of one base-layer character in `get_result`: when an entry exists
at coordinate `i`, the before-list strings in order, then the character, then
the after-list strings in order; otherwise the bare character. -/
def emitChar (m : CharsMap) (v : String) (i : Nat) (c : Char) : List Char :=
  match lookupCC m v i with
  | some p => concatAll p.1 ++ [c] ++ concatAll p.2
  | none => [c]

/-- The per-volume loop of `Serialize.get_result`: scan the base layer keeping
a coordinate counter `i` that starts at 0, skip U+FEFF characters without
incrementing `i` (the `continue` branch of the loop), and emit every other
character through `emitChar`. -/
def renderVol (m : CharsMap) (v : String) : List Char → Nat → List Char
  | [], _ => []
  | c :: cs, i =>
    if c = bom then renderVol m v cs i
    else emitChar m v i c ++ renderVol m v cs (i + 1)

/-- `Serialize.get_result`: iterate over `self.base_layers.items()`, but the
`return res` statement sits inside the `for` loop, so the function returns
after the first volume; with no volumes the loop body never runs and Python
returns `None`. -/
def get_result (base_layers : List (String × List Char)) (m : CharsMap) :
    Option (List Char) :=
  match base_layers with
  | [] => none
  | (v, t) :: _ => some (renderVol m v t 0)

/-- Number of coordinates of a raw text, i.e. its length after removing every
U+FEFF character (the counter `i` in `get_result` is only incremented on
non-BOM characters). -/
def strippedLen (t : List Char) : Nat := (t.filter (fun c => c != bom)).length

end OpenPecha

namespace OpenPecha

theorem lookupCC_setCC_same (m : CharsMap) (v : String) (cc : Nat)
    (val : List (List Char) × List (List Char)) :
    lookupCC (setCC m v cc val) v cc = some val := by
  induction m with
  | nil => simp [setCC, lookupCC]
  | cons e rest ih =>
    by_cases h : e.1 = (v, cc)
    · simp [setCC, h, lookupCC]
    · simp only [setCC, if_neg h, lookupCC]
      exact ih

theorem lookupCC_setCC_ne (m : CharsMap) (v v' : String) (cc cc' : Nat)
    (val : List (List Char) × List (List Char)) (h : (v', cc') ≠ (v, cc)) :
    lookupCC (setCC m v cc val) v' cc' = lookupCC m v' cc' := by
  have hk : ((v, cc) : String × Nat) ≠ (v', cc') := fun he => h he.symm
  induction m with
  | nil => simp [setCC, lookupCC, hk]
  | cons e rest ih =>
    by_cases he : e.1 = (v, cc)
    · simp only [setCC, if_pos he, lookupCC]
      rw [if_neg (he ▸ hk), if_neg (he ▸ hk)]
    · simp only [setCC, if_neg he, lookupCC]
      by_cases hek : e.1 = (v', cc')
      · rw [if_pos hek, if_pos hek]
      · rw [if_neg hek, if_neg hek]
        exact ih

theorem lookupCC_add_chars_same (m : CharsMap) (v : String) (cc : Nat)
    (fb : Bool) (s : List Char) :
    lookupCC (add_chars m v cc fb s) v cc =
      some (if fb then (s :: ((lookupCC m v cc).getD ([], [])).1, ((lookupCC m v cc).getD ([], [])).2)
            else (((lookupCC m v cc).getD ([], [])).1, ((lookupCC m v cc).getD ([], [])).2 ++ [s])) := by
  unfold add_chars
  exact lookupCC_setCC_same m v cc _

theorem lookupCC_add_chars_ne (m : CharsMap) (v v' : String) (cc cc' : Nat)
    (fb : Bool) (s : List Char) (h : (v', cc') ≠ (v, cc)) :
    lookupCC (add_chars m v cc fb s) v' cc' = lookupCC m v' cc' := by
  unfold add_chars
  exact lookupCC_setCC_ne m v v' cc cc' _ h

theorem renderVol_filter (m : CharsMap) (v : String) :
    ∀ (t : List Char) (i : Nat),
      renderVol m v t i = renderVol m v (t.filter (fun c => c != bom)) i := by
  intro t
  induction t with
  | nil => intro i; rfl
  | cons c cs ih =>
    intro i
    by_cases hc : c = bom
    · have hf : (c != bom) = false := by simp [hc]
      rw [List.filter_cons, hf]
      simp only [renderVol, if_pos hc, Bool.false_eq_true, if_false]
      exact ih i
    · have hf : (c != bom) = true := by simp [hc]
      rw [List.filter_cons, hf]
      simp only [renderVol, if_neg hc, if_true]
      rw [ih (i + 1)]

theorem renderVol_empty_map (v : String) :
    ∀ (t : List Char) (i : Nat),
      renderVol ([] : CharsMap) v t i = t.filter (fun c => c != bom) := by
  intro t
  induction t with
  | nil => intro i; rfl
  | cons c cs ih =>
    intro i
    by_cases hc : c = bom
    · have hf : (c != bom) = false := by simp [hc]
      rw [List.filter_cons, hf]
      simp only [renderVol, if_pos hc, Bool.false_eq_true, if_false]
      exact ih i
    · have hf : (c != bom) = true := by simp [hc]
      rw [List.filter_cons, hf]
      simp only [renderVol, if_neg hc, if_true, emitChar, lookupCC]
      rw [ih (i + 1)]
      rfl

end OpenPecha

namespace OpenPecha

/-- Claim C1: for a work whose spans cover two volumes, `get_result` is claimed
to return the concatenation of both volumes' rendered text in span order; the
code instead returns inside the volume loop, so on the two-volume base text
`{va ↦ "xy", vb ↦ "z"}` with no insertions it returns `"xy"` alone, not
`"xyz"`. -/
theorem c1_multivolume_returns_first_volume_only :
    get_result [("va", "xy".data), ("vb", "z".data)] [] = some "xy".data
    ∧ get_result [("va", "xy".data), ("vb", "z".data)] [] ≠ some ("xy".data ++ "z".data) := by
  constructor
  · rfl
  · decide

/-- Claim C6: rendering with zero layers applied is claimed to return the
BOM-stripped base text for every base text.  The identity law does hold for a
single-volume base text (first conjunct, for every volume text), but the early
return inside the volume loop breaks it for multi-volume base texts: with zero
layers, `{v1 ↦ "ef", v2 ↦ "gh"}` renders to `"ef"`, not `"efgh"` (second and
third conjuncts). -/
theorem c6_zero_layer_identity_first_volume_only :
    (∀ (v : String) (t : List Char),
        get_result [(v, t)] [] = some (t.filter (fun c => c != bom)))
    ∧ get_result [("v1", "ef".data), ("v2", "gh".data)] [] = some "ef".data
    ∧ get_result [("v1", "ef".data), ("v2", "gh".data)] [] ≠ some ("ef".data ++ "gh".data) := by
  refine ⟨fun v t => ?_, rfl, by decide⟩
  simp only [get_result, renderVol_empty_map]

theorem concatAll_append (l1 l2 : List (List Char)) :
    concatAll (l1 ++ l2) = concatAll l1 ++ concatAll l2 := by
  induction l1 with
  | nil => rfl
  | cons s rest ih => simp [concatAll, ih]

theorem strippedLen_cons_bom (c : Char) (cs : List Char) (hc : c = bom) :
    strippedLen (c :: cs) = strippedLen cs := by
  simp [strippedLen, List.filter_cons, hc]

theorem strippedLen_cons_ne (c : Char) (cs : List Char) (hc : ¬ c = bom) :
    strippedLen (c :: cs) = strippedLen cs + 1 := by
  have hf : (c != bom) = true := by simp [hc]
  simp [strippedLen, List.filter_cons, hf]

theorem lookupCC_add_chars_front (m : CharsMap) (v : String) (cc : Nat) (s : List Char) :
    lookupCC (add_chars m v cc true s) v cc =
      some (s :: ((lookupCC m v cc).getD ([], [])).1, ((lookupCC m v cc).getD ([], [])).2) := by
  rw [lookupCC_add_chars_same]
  rfl

theorem lookupCC_add_chars_back (m : CharsMap) (v : String) (cc : Nat) (s : List Char) :
    lookupCC (add_chars m v cc false s) v cc =
      some (((lookupCC m v cc).getD ([], [])).1, ((lookupCC m v cc).getD ([], [])).2 ++ [s]) := by
  rw [lookupCC_add_chars_same]
  rfl

theorem renderVol_split (m : CharsMap) (v : String) :
    ∀ (t : List Char) (i k : Nat), k < strippedLen t →
      ∃ pre post c, c ≠ bom ∧ renderVol m v t i = pre ++ emitChar m v (i + k) c ++ post := by
  intro t
  induction t with
  | nil => intro i k hk; simp [strippedLen] at hk
  | cons c cs ih =>
    intro i k hk
    by_cases hc : c = bom
    · rw [strippedLen_cons_bom c cs hc] at hk
      obtain ⟨pre, post, ch, hch, heq⟩ := ih i k hk
      exact ⟨pre, post, ch, hch, by simp only [renderVol, if_pos hc]; exact heq⟩
    · cases k with
      | zero =>
        refine ⟨[], renderVol m v cs (i + 1), c, hc, ?_⟩
        simp [renderVol, if_neg hc]
      | succ k' =>
        rw [strippedLen_cons_ne c cs hc] at hk
        obtain ⟨pre, post, ch, hch, heq⟩ := ih (i + 1) k' (Nat.lt_of_succ_lt_succ hk)
        refine ⟨emitChar m v i c ++ pre, post, ch, hch, ?_⟩
        simp only [renderVol, if_neg hc]
        rw [heq, show i + 1 + k' = i + (k' + 1) from by omega]
        simp [List.append_assoc]

/-- Claim C2: for two `add_chars` calls at the same `(volume, coordinate)`
made in order A then B, both with `frombefore = true`, the rendered output
contains B's text immediately before A's text (most recent before-insertion
outermost); both with `frombefore = false`, A's text appears before B's text
(after-insertions render in application order). -/
theorem c2_same_coordinate_insertion_ordering (m0 : CharsMap) (v : String)
    (cc : Nat) (sA sB t : List Char) (h : cc < strippedLen t) :
    (∃ pre post, renderVol (add_chars (add_chars m0 v cc true sA) v cc true sB) v t 0
        = pre ++ (sB ++ sA) ++ post)
    ∧ (∃ pre post, renderVol (add_chars (add_chars m0 v cc false sA) v cc false sB) v t 0
        = pre ++ (sA ++ sB) ++ post) := by
  constructor
  · obtain ⟨pre, post, ch, hch, heq⟩ :=
      renderVol_split (add_chars (add_chars m0 v cc true sA) v cc true sB) v t 0 cc h
    rw [Nat.zero_add] at heq
    have hm2 : lookupCC (add_chars (add_chars m0 v cc true sA) v cc true sB) v cc =
        some (sB :: sA :: ((lookupCC m0 v cc).getD ([], [])).1,
              ((lookupCC m0 v cc).getD ([], [])).2) := by
      rw [lookupCC_add_chars_front, lookupCC_add_chars_front]
      rfl
    refine ⟨pre, concatAll ((lookupCC m0 v cc).getD ([], [])).1 ++ [ch]
      ++ concatAll ((lookupCC m0 v cc).getD ([], [])).2 ++ post, ?_⟩
    rw [heq]
    simp only [emitChar, hm2, concatAll]
    simp [List.append_assoc]
  · obtain ⟨pre, post, ch, hch, heq⟩ :=
      renderVol_split (add_chars (add_chars m0 v cc false sA) v cc false sB) v t 0 cc h
    rw [Nat.zero_add] at heq
    have hm2 : lookupCC (add_chars (add_chars m0 v cc false sA) v cc false sB) v cc =
        some (((lookupCC m0 v cc).getD ([], [])).1,
              (((lookupCC m0 v cc).getD ([], [])).2 ++ [sA]) ++ [sB]) := by
      rw [lookupCC_add_chars_back, lookupCC_add_chars_back]
      rfl
    refine ⟨pre ++ concatAll ((lookupCC m0 v cc).getD ([], [])).1 ++ [ch]
      ++ concatAll ((lookupCC m0 v cc).getD ([], [])).2, post, ?_⟩
    rw [heq]
    simp only [emitChar, hm2, concatAll_append, concatAll]
    simp [List.append_assoc]

/-- Witness for C2 at a concrete input: volume `"v"`, coordinate 0 of the
one-character text `['x']`, insertions `['A']` then `['B']`. -/
theorem c2_same_coordinate_insertion_ordering_witness :
    0 < strippedLen ['x']
    ∧ ((∃ pre post, renderVol (add_chars (add_chars [] "v" 0 true ['A']) "v" 0 true ['B']) "v" ['x'] 0
          = pre ++ (['B'] ++ ['A']) ++ post)
       ∧ (∃ pre post, renderVol (add_chars (add_chars [] "v" 0 false ['A']) "v" 0 false ['B']) "v" ['x'] 0
          = pre ++ (['A'] ++ ['B']) ++ post)) :=
  ⟨by decide, c2_same_coordinate_insertion_ordering [] "v" 0 ['A'] ['B'] ['x'] (by decide)⟩

/-- Claim C10: `get_result` omits every occurrence of U+FEFF in a volume's
base layer — not only a leading one — from the rendered output, and skips it
in the coordinate numbering used to look up insertions: rendering a base text
equals rendering the same base text with every U+FEFF character removed, for
any insertion map. -/
theorem c10_every_bom_skipped_in_output_and_numbering (m : CharsMap) (v : String)
    (t : List Char) (rest : List (String × List Char)) :
    get_result ((v, t) :: rest) m = get_result ((v, t.filter (fun c => c != bom)) :: rest) m := by
  simp only [get_result]
  rw [renderVol_filter m v t 0]

end OpenPecha

namespace OpenPecha

theorem renderVol_congr (m1 m2 : CharsMap) (v : String) :
    ∀ (t : List Char) (i : Nat),
      (∀ j, i ≤ j → j < i + strippedLen t → lookupCC m1 v j = lookupCC m2 v j) →
      renderVol m1 v t i = renderVol m2 v t i := by
  intro t
  induction t with
  | nil => intro i _; rfl
  | cons c cs ih =>
    intro i h
    by_cases hc : c = bom
    · simp only [renderVol, if_pos hc]
      refine ih i (fun j hj1 hj2 => h j hj1 ?_)
      rw [strippedLen_cons_bom c cs hc]
      exact hj2
    · simp only [renderVol, if_neg hc]
      have hlen := strippedLen_cons_ne c cs hc
      have hi : lookupCC m1 v i = lookupCC m2 v i :=
        h i (Nat.le_refl i) (by rw [hlen]; omega)
      rw [show emitChar m1 v i c = emitChar m2 v i c from by simp only [emitChar, hi]]
      rw [ih (i + 1) (fun j hj1 hj2 => h j (by omega) (by rw [hlen]; omega))]

/-- Counterexample to claim C7: the insertion recorded at coordinate 5 of the
two-character volume `"ab"` is silently dropped by `get_result` — the result
is exactly the plain base text, identical to rendering with no insertions
recorded at all, and no error of any kind is produced. -/
theorem c7_counterexample_out_of_bounds_insertion_silently_dropped :
    get_result [("v1", "ab".data)] (add_chars [] "v1" 5 true ['X']) = some "ab".data
    ∧ get_result [("v1", "ab".data)] (add_chars [] "v1" 5 true ['X'])
        = get_result [("v1", "ab".data)] [] := by
  exact ⟨by decide, by decide⟩

/-- Claim C7 as amended: an insertion recorded at a coordinate greater than or
equal to the volume's (U+FEFF-stripped) text length is silently ignored —
rendering is unchanged by such an `add_chars` call, and no error is raised
(`get_result` has no error outcome). -/
theorem c7_amended_out_of_bounds_insertion_has_no_effect (m : CharsMap)
    (v : String) (cc : Nat) (fb : Bool) (s t : List Char)
    (h : strippedLen t ≤ cc) :
    renderVol (add_chars m v cc fb s) v t 0 = renderVol m v t 0 := by
  refine renderVol_congr (add_chars m v cc fb s) m v t 0 (fun j _ hj2 => ?_)
  refine lookupCC_add_chars_ne m v v cc j fb s (fun he => ?_)
  have hj : j = cc := congrArg Prod.snd he
  omega

/-- Witness for the amended C7 at a concrete input: coordinate 5 of the
two-character text `"cd"`. -/
theorem c7_amended_out_of_bounds_insertion_has_no_effect_witness :
    strippedLen "cd".data ≤ 5
    ∧ renderVol (add_chars [] "w" 5 false ['Y']) "w" "cd".data 0
        = renderVol [] "w" "cd".data 0 :=
  ⟨by decide,
   c7_amended_out_of_bounds_insertion_has_no_effect [] "w" 5 false ['Y'] "cd".data (by decide)⟩

/-- One recorded `add_chars` invocation: its volume id, character coordinate,
placement flag and characters to add. -/
structure AddCall where
  vol : String
  cc : Nat
  frombefore : Bool
  chars : List Char
  deriving DecidableEq

/-- The `chars_toapply` state after a sequence of `add_chars` calls, starting
from the freshly initialized empty structure. -/
def applyCalls (calls : List AddCall) : CharsMap :=
  calls.foldl (fun m call => add_chars m call.vol call.cc call.frombefore call.chars) []

theorem mem_setCC (m : CharsMap) (v : String) (cc : Nat)
    (val : List (List Char) × List (List Char)) :
    ∀ e, e ∈ setCC m v cc val → e = ((v, cc), val) ∨ e ∈ m := by
  induction m with
  | nil =>
    intro e he
    simp only [setCC, List.mem_singleton] at he
    exact Or.inl he
  | cons e0 rest ih =>
    intro e he
    by_cases h0 : e0.1 = (v, cc)
    · simp only [setCC, if_pos h0] at he
      rcases List.mem_cons.mp he with h | h
      · left; rw [h, h0]
      · right; exact List.mem_cons_of_mem _ h
    · simp only [setCC, if_neg h0] at he
      rcases List.mem_cons.mp he with h | h
      · right; rw [h]; exact List.mem_cons_self _ _
      · rcases ih e h with h' | h'
        · left; exact h'
        · right; exact List.mem_cons_of_mem _ h'

theorem mem_add_chars (m : CharsMap) (v : String) (cc : Nat) (fb : Bool)
    (s : List Char) :
    ∀ e, e ∈ add_chars m v cc fb s →
      (e.1 = (v, cc) ∧ 1 ≤ e.2.1.length + e.2.2.length) ∨ e ∈ m := by
  intro e he
  unfold add_chars at he
  rcases mem_setCC m v cc _ e he with h | h
  · left
    subst h
    refine ⟨rfl, ?_⟩
    cases fb <;> simp <;> omega
  · right; exact h

theorem foldl_add_chars_inv (K : String × Nat → Prop) :
    ∀ (calls : List AddCall) (m : CharsMap),
      (∀ call ∈ calls, K (call.vol, call.cc)) →
      (∀ e ∈ m, 1 ≤ e.2.1.length + e.2.2.length ∧ K e.1) →
      ∀ e ∈ calls.foldl (fun m call => add_chars m call.vol call.cc call.frombefore call.chars) m,
        1 ≤ e.2.1.length + e.2.2.length ∧ K e.1 := by
  intro calls
  induction calls with
  | nil => intro m _ hm e he; exact hm e he
  | cons call rest ih =>
    intro m hK hm e he
    simp only [List.foldl_cons] at he
    refine ih (add_chars m call.vol call.cc call.frombefore call.chars)
      (fun c hc => hK c (List.mem_cons_of_mem _ hc)) (fun e' he' => ?_) e he
    rcases mem_add_chars m call.vol call.cc call.frombefore call.chars e' he' with ⟨h1, h2⟩ | h
    · exact ⟨h2, h1 ▸ hK call (List.mem_cons_self _ _)⟩
    · exact hm e' h

/-- Claim C9: after any sequence of `add_chars` calls starting from the
freshly initialized structure, every `(volume, coordinate)` key present in
`chars_toapply` holds a pair whose combined before/after length is at least
one, and every present key is the `(vol, cc)` of some call in the sequence —
no key exists for a coordinate that received no insertion. -/
theorem c9_keys_exist_only_with_insertions (calls : List AddCall)
    (e : (String × Nat) × (List (List Char) × List (List Char)))
    (he : e ∈ applyCalls calls) :
    1 ≤ e.2.1.length + e.2.2.length
    ∧ ∃ call, call ∈ calls ∧ (call.vol, call.cc) = e.1 := by
  have h := foldl_add_chars_inv (fun k => ∃ call, call ∈ calls ∧ (call.vol, call.cc) = k)
    calls [] (fun call hc => ⟨call, hc, rfl⟩) (fun e' he' => absurd he' (List.not_mem_nil e'))
  unfold applyCalls at he
  exact h e he

/-- Witness for C9 at a concrete input: the single call
`add_chars "v" 0 frombefore=true ['X']`. -/
theorem c9_keys_exist_only_with_insertions_witness :
    ((("v", 0), ([['X']], [])) :
        (String × Nat) × (List (List Char) × List (List Char)))
      ∈ applyCalls [⟨"v", 0, true, ['X']⟩]
    ∧ (1 ≤ ([['X']] : List (List Char)).length + ([] : List (List Char)).length
       ∧ ∃ call, call ∈ [(⟨"v", 0, true, ['X']⟩ : AddCall)]
          ∧ (call.vol, call.cc) = ("v", 0)) :=
  ⟨by decide,
   c9_keys_exist_only_with_insertions [⟨"v", 0, true, ['X']⟩]
     (("v", 0), ([['X']], [])) (by decide)⟩

end OpenPecha

namespace OpenPecha

/-- `Serialize.apply_layers` as a function from the layer list, the volume
ids of `base_layers`, and the listing returned by `get_all_layer` (a
filesystem iteration, supplied here as an input, in directory order — the
code never sorts it) to the sequence of `(vol_id, layer_id)` argument pairs
passed to `apply_layer`, or the runtime error raised.  Python truthiness:
`if self.layers:` sends both `None` and an empty list to the `else` branch.
In the `else` branch the code runs `self.apply_layer(layer_id)` with a single
argument although `apply_layer` requires `(vol_id, layer_id)`, so the first
such call raises `TypeError`; hence the branch errors as soon as there is at
least one volume and at least one discovered layer, and applies nothing
otherwise. -/
def apply_layers (layers : Option (List String)) (vols : List String)
    (all_layers : List String) : Except String (List (String × String)) :=
  match layers with
  | some (l :: ls) =>
    Except.ok ((vols.map (fun v => (l :: ls).map (fun lay => (v, lay)))).flatten)
  | _ =>
    if vols = [] ∨ all_layers = [] then Except.ok []
    else Except.error "TypeError: apply_layer missing 1 required positional argument"

/-- Claim C8: with `layers = None`, `apply_layers` is claimed to apply, for
every volume, all discovered layers in lexicographic order via
`apply_layer(volume, layerId)`; the code instead calls
`self.apply_layer(layer_id)` with the volume argument missing, so on a
repository with one volume and discovered layers `["a", "b"]` it raises
`TypeError` and never produces the claimed `[(v1, a), (v1, b)]` application
sequence (nor any other). -/
theorem c8_default_layer_application_raises_type_error :
    apply_layers none ["v1"] ["a", "b"]
        = Except.error "TypeError: apply_layer missing 1 required positional argument"
    ∧ ∀ result, apply_layers none ["v1"] ["a", "b"] ≠ Except.ok result := by
  refine ⟨rfl, fun result h => ?_⟩
  exact Except.noConfusion h

end OpenPecha

namespace OpenPoti

/-- One operation of the generic diff primitive (diff-match-patch) over two
texts: a run common to both, a run present only in the destination text, or a
run present only in the source text. -/
inductive DiffOp where
  | equal (run : List Char)
  | ins (run : List Char)
  | del (run : List Char)
  deriving DecidableEq

/-- The source text reconstructed from a diff: equal and deleted runs. -/
def diffSrc : List DiffOp → List Char
  | [] => []
  | DiffOp.equal r :: rest => r ++ diffSrc rest
  | DiffOp.ins _ :: rest => diffSrc rest
  | DiffOp.del r :: rest => r ++ diffSrc rest

/-- The destination text reconstructed from a diff: equal and inserted runs. -/
def diffDst : List DiffOp → List Char
  | [] => []
  | DiffOp.equal r :: rest => r ++ diffDst rest
  | DiffOp.ins r :: rest => r ++ diffDst rest
  | DiffOp.del _ :: rest => diffDst rest

/-- Modelled from the spec: the body of `Blupdate.compute_cctv` is an empty
stub (`pass`) in the source, so this follows its docstring and spec §4.2.
Walk the diff operations with a source cursor starting at 0 and a running
offset starting at 0: an equal run of length L emits the triple
`(srcCursor, srcCursor + L, offset)` and advances the cursor; an insertion of
length L adds L to the offset; a deletion of length L subtracts L from the
offset and advances the cursor. -/
def computeCctvFrom : List DiffOp → Nat → Int → List (Nat × Nat × Int)
  | [], _, _ => []
  | DiffOp.equal r :: rest, srcCursor, offset =>
    (srcCursor, srcCursor + r.length, offset)
      :: computeCctvFrom rest (srcCursor + r.length) offset
  | DiffOp.ins r :: rest, srcCursor, offset =>
    computeCctvFrom rest srcCursor (offset + r.length)
  | DiffOp.del r :: rest, srcCursor, offset =>
    computeCctvFrom rest (srcCursor + r.length) (offset - r.length)

/-- Modelled from the spec: `Blupdate.compute_cctv` from the diff operations,
with cursor and offset initialized to 0. -/
def compute_cctv (ops : List DiffOp) : List (Nat × Nat × Int) :=
  computeCctvFrom ops 0 0

/-- Claim C4: on `srcbl = "abefghijkl"`, `dstbl = "abcdefgkl"` the diff is
equal("ab"), insert("cd"), equal("efg"), delete("hij"), equal("kl") — the
first two conjuncts check that these operations reconstruct exactly those two
texts — and `compute_cctv` built from it by the stated algorithm is exactly
`[(0,2,0), (2,5,2), (8,10,-1)]`. -/
theorem c4_worked_translation_vector :
    diffSrc [DiffOp.equal "ab".data, DiffOp.ins "cd".data, DiffOp.equal "efg".data,
        DiffOp.del "hij".data, DiffOp.equal "kl".data] = "abefghijkl".data
    ∧ diffDst [DiffOp.equal "ab".data, DiffOp.ins "cd".data, DiffOp.equal "efg".data,
        DiffOp.del "hij".data, DiffOp.equal "kl".data] = "abcdefgkl".data
    ∧ compute_cctv [DiffOp.equal "ab".data, DiffOp.ins "cd".data, DiffOp.equal "efg".data,
        DiffOp.del "hij".data, DiffOp.equal "kl".data]
      = [(0, 2, 0), (2, 5, 2), (8, 10, -1)] := by
  refine ⟨by decide, by decide, by decide⟩

/-- First triple of the cctv whose half-open source range `[s, e)` contains
the coordinate, if any (the certain case of `get_cctv_for_coord`). -/
def findExact : List (Nat × Nat × Int) → Nat → Option Int
  | [], _ => none
  | (s, e, o) :: rest, c => if s ≤ c ∧ c < e then some o else findExact rest c

/-- Offset of the nearest triple that ends at or before the coordinate (the
cctv is ordered by source start). -/
def lastBefore : List (Nat × Nat × Int) → Nat → Option Int
  | [], _ => none
  | (_, e, o) :: rest, c => if e ≤ c then some ((lastBefore rest c).getD o) else none

/-- Offset of the nearest triple that starts after the coordinate. -/
def firstAfter : List (Nat × Nat × Int) → Nat → Option Int
  | [], _ => none
  | (s, _, o) :: rest, c => if c < s then some o else firstAfter rest c

/-- Modelled from the spec: the average of two offsets rounded to the nearest
integer with ties toward positive infinity (`0.5 → 1`, `-0.5 → 0`), i.e.
`⌊(a + b + 1) / 2⌋`. -/
def avgRoundHalfUp (a b : Int) : Int := Int.fdiv (a + b + 1) 2

/-- Modelled from the spec: the body of `Blupdate.get_cctv_for_coord` is an
empty stub (`pass`) in the source, so this follows its docstring and spec
§4.2.  A coordinate inside a triple's source range returns that triple's
offset with `certain = true`; otherwise the estimate is the rounded average
of the offsets of the neighbouring triples before and after the gap (only
the existing neighbour when the gap touches a boundary), with
`certain = false`. -/
def get_cctv_for_coord (cctv : List (Nat × Nat × Int)) (c : Nat) : Int × Bool :=
  match findExact cctv c with
  | some o => (o, true)
  | none =>
    match lastBefore cctv c, firstAfter cctv c with
    | some o1, some o2 => (avgRoundHalfUp o1 o2, false)
    | some o1, none => (o1, false)
    | none, some o2 => (o2, false)
    | none, none => (0, false)

theorem findExact_mem (cctv : List (Nat × Nat × Int)) (s e : Nat) (o : Int)
    (c : Nat) (hsort : cctv.Pairwise (fun t1 t2 => t1.2.1 ≤ t2.1))
    (hmem : (s, e, o) ∈ cctv) (h1 : s ≤ c) (h2 : c < e) :
    findExact cctv c = some o := by
  induction cctv with
  | nil => cases hmem
  | cons t rest ih =>
    obtain ⟨ts, te, tOff⟩ := t
    rcases List.mem_cons.mp hmem with h | h
    · injection h with hs h'
      injection h' with he ho
      subst hs
      subst he
      subst ho
      simp only [findExact]
      rw [if_pos ⟨h1, h2⟩]
    · have hte : te ≤ s := (List.pairwise_cons.mp hsort).1 (s, e, o) h
      simp only [findExact]
      rw [if_neg (fun hcon => absurd hcon.2 (Nat.not_lt.mpr (Nat.le_trans hte h1)))]
      exact ih (List.pairwise_cons.mp hsort).2 h

/-- Claim C5: for every coordinate inside a cctv triple `[s, e)` with offset
`o` (the cctv being sorted and non-overlapping as the data-model invariant
requires), `get_cctv_for_coord` returns `(o, true)`; on the worked vector the
gap coordinate 7 returns the rounded average `(1, false)` and the in-triple
coordinate 3 returns `(2, true)`. -/
theorem c5_lookup_certain_in_triple_and_worked_gap
    (cctv : List (Nat × Nat × Int)) (s e : Nat) (o : Int) (c : Nat)
    (hsort : cctv.Pairwise (fun t1 t2 => t1.2.1 ≤ t2.1))
    (hmem : (s, e, o) ∈ cctv) (h1 : s ≤ c) (h2 : c < e) :
    get_cctv_for_coord cctv c = (o, true)
    ∧ get_cctv_for_coord [(0, 2, 0), (2, 5, 2), (8, 10, -1)] 3 = (2, true)
    ∧ get_cctv_for_coord [(0, 2, 0), (2, 5, 2), (8, 10, -1)] 7 = (1, false) := by
  refine ⟨?_, by decide, by decide⟩
  simp [get_cctv_for_coord, findExact_mem cctv s e o c hsort hmem h1 h2]

/-- Witness for C5 at a concrete input: the worked vector with the triple
`(2, 5, 2)` and coordinate 3. -/
theorem c5_lookup_certain_in_triple_and_worked_gap_witness :
    List.Pairwise (fun t1 t2 => t1.2.1 ≤ t2.1)
        ([(0, 2, 0), (2, 5, 2), (8, 10, -1)] : List (Nat × Nat × Int))
    ∧ ((2, 5, 2) : Nat × Nat × Int) ∈
        ([(0, 2, 0), (2, 5, 2), (8, 10, -1)] : List (Nat × Nat × Int))
    ∧ 2 ≤ 3 ∧ 3 < 5
    ∧ (get_cctv_for_coord [(0, 2, 0), (2, 5, 2), (8, 10, -1)] 3 = (2, true)
       ∧ get_cctv_for_coord [(0, 2, 0), (2, 5, 2), (8, 10, -1)] 3 = (2, true)
       ∧ get_cctv_for_coord [(0, 2, 0), (2, 5, 2), (8, 10, -1)] 7 = (1, false)) :=
  ⟨by decide, by decide, by decide, by decide,
   c5_lookup_certain_in_triple_and_worked_gap
     [(0, 2, 0), (2, 5, 2), (8, 10, -1)] 2 5 2 3
     (by decide) (by decide) (by decide) (by decide)⟩

end OpenPoti

namespace OpenPoti

/-- Modelled from the spec: the body of `Blupdate.get_context` is an empty
stub (`pass`) in the source, so this follows its docstring and spec §4.2:
the up-to-`contextlen` characters immediately before and after the
coordinate in `srcbl`, truncated at the text boundaries. -/
def get_context (srcbl : List Char) (contextlen : Nat) (srcblcoord : Nat) :
    List Char × List Char :=
  ((srcbl.take srcblcoord).drop (srcblcoord - contextlen),
   (srcbl.drop srcblcoord).take contextlen)

/-- `Blupdate.get_updated_with_dmp(srcblcoord, cct)` translated from the
source: compute the context, compute the estimate `srcblcoord + cct`, and
return the result of `dmp_find` directly.  `dmp_find` is the external
approximate-substring-search primitive, whose body is an empty stub in the
source; it is therefore a parameter here. -/
def get_updated_with_dmp (dmp_find : List Char × List Char → Int → Int)
    (srcbl : List Char) (contextlen : Nat) (srcblcoord : Nat) (cct : Int) : Int :=
  dmp_find (get_context srcbl contextlen srcblcoord) ((srcblcoord : Int) + cct)

/-- `Blupdate.get_updated_coord(srcblcoord)` translated from the source: look
up the cctv for the coordinate; when certain, return `srcblcoord + offset`;
when uncertain, the source invokes `self.getupdatedwithdmp(...)`, an
attribute that does not exist on the class (the helper is declared as
`get_updated_with_dmp`), so Python raises `AttributeError` before any fuzzy
lookup can run; that exception is modelled as `Except.error`. -/
def get_updated_coord (cctv : List (Nat × Nat × Int)) (srcblcoord : Nat) :
    Except String Int :=
  let cctvforcoord := get_cctv_for_coord cctv srcblcoord
  if cctvforcoord.2 then Except.ok ((srcblcoord : Int) + cctvforcoord.1)
  else Except.error "AttributeError: Blupdate object has no attribute getupdatedwithdmp"

/-- Claim C3: on the certain path `get_updated_coord` does return
`coordinate + offset` (on the worked vector, coordinate 3 gives 3 + 2 = 5),
but on the uncertain path the code does not call the fuzzy-locate helper and
cannot return the -1 sentinel: the misspelled attribute access
`self.getupdatedwithdmp` raises `AttributeError` (here, coordinate 7 of the
worked vector, whose lookup is uncertain). -/
theorem c3_certain_adds_offset_uncertain_path_raises :
    get_updated_coord [(0, 2, 0), (2, 5, 2), (8, 10, -1)] 3 = Except.ok 5
    ∧ get_updated_coord [(0, 2, 0), (2, 5, 2), (8, 10, -1)] 7
        = Except.error "AttributeError: Blupdate object has no attribute getupdatedwithdmp" := by
  exact ⟨rfl, rfl⟩

end OpenPoti
